import Mathlib

/-!
Verification of the graph-builder / validator / compiler core
(src/langgraph/graph/graph.py) against its natural-language specification.

The Python module is shallowly embedded below: the mutable builder becomes a
pure record threaded through the declaration operations, Python dicts become
association lists in insertion order, Python sets become duplicate-free lists
in insertion order, and raised exceptions become explicit error values.
Node actions and routing functions are opaque external collaborators
(langchain Runnables); only their identity (names) and the labels a routing
function returns at run time are relevant, so routing results are passed to
the embedded runtime functions as explicit arguments.
-/

set_option maxHeartbeats 1000000
set_option linter.unusedVariables false

deriving instance DecidableEq for Except

/-- The reserved entry identifier, Python constant START. -/
def START : String := "__start__"

/-- The reserved terminal identifier, Python constant END. -/
def END : String := "__end__"

/-- Embeds the Branch named tuple: the optional destination remapping table
(Python field ends, an ordered dict embedded as an association list) and the
optional convergence node (Python field then, renamed since then is a Lean
keyword).  The path runnable itself is external user code; its run-time
result is passed explicitly to the routing functions below. -/
structure Branch where
  ends : Option (List (String × String))
  thn : Option String
deriving DecidableEq, Inhabited

/-- Run-time routing failure: Python raises KeyError when a returned label is
absent from the ends mapping. -/
inductive RouteError
  | unknownLabel (label : String)
deriving DecidableEq

/-- Embeds the Python list comprehension destinations = ends of r for r in
result: the first label missing from the mapping raises. -/
def resolveLabels (m : List (String × String)) : List String → Except RouteError (List String)
  | [] => Except.ok []
  | r :: rest =>
    match m.lookup r with
    | none => Except.error (RouteError.unknownLabel r)
    | some d =>
      match resolveLabels m rest with
      | Except.error e => Except.error e
      | Except.ok ds => Except.ok (d :: ds)

/-- A routing function returns one label or a list of labels
(Union of str and list of str in the Python signature). -/
inductive PathResult
  | single (s : String)
  | multi (ls : List String)
deriving DecidableEq

/-- Embeds the normalisation in Branch route: a non-list result is wrapped
into a singleton list. -/
def normalizeResult : PathResult → List String
  | PathResult.single s => [s]
  | PathResult.multi ls => ls

/-- Embeds the destination resolution of Branch route.  The Python guard is
if self.ends, a truthiness test: only a non-empty mapping remaps the labels
(raising on a missing label); an absent mapping and an explicit empty
mapping alike leave the labels as the destinations. -/
def Branch.route (b : Branch) (result : List String) : Except RouteError (List String) :=
  match b.ends with
  | some (q :: m) => resolveLabels (q :: m) result
  | _ => Except.ok result

/-- Embeds the channel-name format string branch:start:name:end used by the
compiler for dedicated per-destination branch channels. -/
def branchChannel (start name dst : String) : String :=
  "branch:" ++ start ++ ":" ++ name ++ ":" ++ dst

/-- Embeds branch_writer inside attach_branch: each resolved destination is
mapped to its dedicated branch channel, except the terminal destination which
maps to the terminal channel itself. -/
def branchWriterChannels (start name : String) (dests : List String) : List String :=
  dests.map (fun e => if e = END then END else branchChannel start name e)

/-- A branch writer stage as attached by the compiler to the source unit:
it remembers the source, the branch name and the branch data. -/
structure BranchStage where
  src : String
  name : String
  branch : Branch
deriving DecidableEq, Inhabited

/-- Running a lowered branch writer stage at run time: the routing result is
normalised, remapped through ends, and turned into the list of channels the
stage writes to. -/
def runBranchStage (st : BranchStage) (pathResult : PathResult) : Except RouteError (List String) :=
  match st.branch.route (normalizeResult pathResult) with
  | Except.error e => Except.error e
  | Except.ok dests => Except.ok (branchWriterChannels st.src st.name dests)

/-- Embeds the mutable Graph builder: declared node keys (dict keys in
insertion order; the coerced actions are opaque and dropped), the edge set
(a Python set embedded as a duplicate-free list in insertion order), the
per-source branch tables (defaultdict of dict, embedded as nested
association lists in insertion order), the multiple-edge policy flag and the
compiled flag. -/
structure Graph where
  nodes : List String
  edges : List (String × String)
  branches : List (String × List (String × Branch))
  support_multiple_edges : Bool
  compiled : Bool
deriving DecidableEq, Inhabited

/-- The freshly constructed builder. -/
def Graph.empty : Graph :=
  { nodes := [], edges := [], branches := [], support_multiple_edges := false, compiled := false }

/-- Declaration-time errors raised by the builder operations. -/
inductive BuildError
  | duplicateNode (key : String)
  | reservedName (key : String)
  | invalidEndpoint (msg : String)
  | multipleEdges (key : String)
  | duplicateBranch (source name : String)
deriving DecidableEq

/-- Result of one builder call: the builder state after the call, whether the
already-compiled warning was logged, and the raised error if any.  In the
three operations below every check precedes the single mutating statement,
exactly as in the Python methods, so an error leaves the state untouched. -/
structure OpResult where
  graph : Graph
  warned : Bool
  err : Option BuildError
deriving DecidableEq

/-- Association-list lookup embedding a Python dict read (first matching key
in insertion order; keys are unique in every dict the builder constructs). -/
def lookupKey {α : Type _} (k : String) : List (String × α) → Option α
  | [] => none
  | (k2, v) :: rest => if k = k2 then some v else lookupKey k rest

/-- Set-like insertion used to embed Python set.add and dict key creation. -/
def insertUniq (l : List String) (x : String) : List String :=
  if l.contains x then l else l ++ [x]

/-- Folding set-like insertion over a batch of elements. -/
def dedupAppend (l : List String) (xs : List String) : List String :=
  xs.foldl insertUniq l

/-- Set-like insertion for edge pairs, embedding self.edges.add. -/
def insertEdge (es : List (String × String)) (e : String × String) : List (String × String) :=
  if es.contains e then es else es ++ [e]

/-- Embeds Graph.add_node: duplicate check, reserved-name check, then the
dict insertion (the coerced action is opaque and not modelled). -/
def add_node (g : Graph) (key : String) : OpResult :=
  let w := g.compiled
  if g.nodes.contains key then
    { graph := g, warned := w, err := some (BuildError.duplicateNode key) }
  else if key = END ∨ key = START then
    { graph := g, warned := w, err := some (BuildError.reservedName key) }
  else
    { graph := { g with nodes := g.nodes ++ [key] }, warned := w, err := none }

/-- Embeds Graph.add_edge: endpoint checks, the single-out-edge policy check,
then the set insertion. -/
def add_edge (g : Graph) (start_key end_key : String) : OpResult :=
  let w := g.compiled
  if start_key = END then
    { graph := g, warned := w, err := some (BuildError.invalidEndpoint "END cannot be a start node") }
  else if end_key = START then
    { graph := g, warned := w, err := some (BuildError.invalidEndpoint "START cannot be an end node") }
  else if ¬ g.support_multiple_edges ∧ (g.edges.map Prod.fst).contains start_key then
    { graph := g, warned := w, err := some (BuildError.multipleEdges start_key) }
  else
    { graph := { g with edges := insertEdge g.edges (start_key, end_key) }, warned := w, err := none }

/-- Inserts a named branch under a source, embedding the defaultdict write
self.branches of source of name := branch. -/
def setBranch (bs : List (String × List (String × Branch))) (source name : String) (b : Branch) :
    List (String × List (String × Branch)) :=
  match bs with
  | [] => [(source, [(name, b)])]
  | (s, m) :: rest =>
    if s = source then (s, m ++ [(name, b)]) :: rest
    else (s, m) :: setBranch rest source name b

/-- Embeds Graph.add_conditional_edges: the branch name is the coerced path
name or the default string condition; a duplicate name for the same source
raises; otherwise the branch is stored.  The path runnable itself is opaque
external code, so only its name is taken as an argument. -/
def add_conditional_edges (g : Graph) (source : String) (pathName : Option String)
    (path_map : Option (List (String × String))) (thn : Option String) : OpResult :=
  let w := g.compiled
  let name := pathName.getD "condition"
  let existing := (lookupKey source g.branches).getD []
  if (lookupKey name existing).isSome then
    { graph := g, warned := w, err := some (BuildError.duplicateBranch source name) }
  else
    { graph := { g with branches := setBranch g.branches source name (Branch.mk path_map thn) },
      warned := w, err := none }

/-- Embeds Graph.set_entry_point. -/
def set_entry_point (g : Graph) (key : String) : OpResult :=
  add_edge g START key

/-- Embeds Graph.set_finish_point. -/
def set_finish_point (g : Graph) (key : String) : OpResult :=
  add_edge g key END

/-- Structural and run-time validation errors.  The nameErrorUnbound value
embeds the Python NameError raised when the source-checking loop reads the
loop variable of the node loop although that loop never ran. -/
inductive ValidationError
  | deadEnd (n : String)
  | unknownSource (s : String)
  | nameErrorUnbound
  | unknownBranchTarget (start cond target : String)
  | unreachable (n : String)
  | unknownTarget (t : String)
  | unknownInterrupt (n : String)
deriving DecidableEq

/-- The source contributions of one branch in Graph.validate: only a branch
with a convergence node contributes beyond its own start; with an explicit
ends table the ends values are reinterpreted as sources, otherwise every
declared node other than the start and the convergence node is. -/
def branchSources (nodes : List String) (start : String) (b : Branch) : List String :=
  match b.thn with
  | none => []
  | some t =>
    match b.ends with
    | some m => m.map Prod.snd
    | none => nodes.filter (fun n => n ≠ start ∧ n ≠ t)

/-- Embeds the all_sources set assembled by Graph.validate, as a
duplicate-free list in the insertion order of the Python loops. -/
def allSources (g : Graph) : List String :=
  let s0 := dedupAppend [] (g.edges.map Prod.fst)
  g.branches.foldl
    (fun acc p =>
      p.2.foldl (fun acc2 q => dedupAppend (insertUniq acc2 p.1) (branchSources g.nodes p.1 q.2)) acc)
    s0

/-- Embeds the dead-end loop of Graph.validate: the first declared node that
is not a source. -/
def findDeadEnd (nodes srcs : List String) : Option String :=
  nodes.find? (fun n => ¬ srcs.contains n)

/-- Embeds the source-checking loop of Graph.validate, including its defect:
the guard reads the stale loop variable of the preceding node loop (passed
here as the stale argument; none when the node loop never ran and the
variable is unbound, raising NameError) instead of the iterated source. -/
def checkSources (nodes : List String) (stale : Option String) :
    List String → Except ValidationError Unit
  | [] => Except.ok ()
  | s :: rest =>
    match stale with
    | none => Except.error ValidationError.nameErrorUnbound
    | some n =>
      if ¬ nodes.contains n ∧ n ≠ START then Except.error (ValidationError.unknownSource s)
      else checkSources nodes stale rest

/-- Embeds the ends loop in the target assembly of Graph.validate: each ends
value is checked against the declared nodes (or terminal) and accumulated. -/
def addEndsTargets (nodes : List String) (start cond : String) :
    List String → List String → Except ValidationError (List String)
  | acc, [] => Except.ok acc
  | acc, e :: rest =>
    if ¬ nodes.contains e ∧ e ≠ END then
      Except.error (ValidationError.unknownBranchTarget start cond e)
    else addEndsTargets nodes start cond (insertUniq acc e) rest

/-- The target contributions of one branch in Graph.validate: the optional
convergence node, then either the checked ends values, or the terminal plus
every declared node other than the start and the convergence node. -/
def addBranchTargets (nodes : List String) (start cond : String) (b : Branch)
    (acc : List String) : Except ValidationError (List String) :=
  let acc1 := match b.thn with
    | some t => insertUniq acc t
    | none => acc
  match b.ends with
  | some m => addEndsTargets nodes start cond acc1 (m.map Prod.snd)
  | none =>
    Except.ok (dedupAppend (insertUniq acc1 END)
      (nodes.filter (fun n => n ≠ start ∧ b.thn ≠ some n)))

/-- Folds the target contributions of the branches of one source. -/
def addSourceTargets (nodes : List String) (start : String) :
    List (String × Branch) → List String → Except ValidationError (List String)
  | [], acc => Except.ok acc
  | (cond, b) :: rest, acc =>
    match addBranchTargets nodes start cond b acc with
    | Except.error e => Except.error e
    | Except.ok acc2 => addSourceTargets nodes start rest acc2

/-- Folds the target contributions of all branches. -/
def addAllBranchTargets (nodes : List String) :
    List (String × List (String × Branch)) → List String → Except ValidationError (List String)
  | [], acc => Except.ok acc
  | (start, brs) :: rest, acc =>
    match addSourceTargets nodes start brs acc with
    | Except.error e => Except.error e
    | Except.ok acc2 => addAllBranchTargets nodes rest acc2

/-- Embeds the all_targets assembly of Graph.validate (which raises inline on
an unknown explicit branch target). -/
def assembleTargets (g : Graph) : Except ValidationError (List String) :=
  addAllBranchTargets g.nodes g.branches (dedupAppend [] (g.edges.map Prod.snd))

/-- Embeds Graph.validate: source assembly and checks (with the stale loop
variable defect), target assembly and checks, interrupt checks, and finally
the compiled flag is set. -/
def validate (g : Graph) (interrupt : List String) : Except ValidationError Graph :=
  let srcs := allSources g
  match findDeadEnd g.nodes srcs with
  | some n => Except.error (ValidationError.deadEnd n)
  | none =>
  match checkSources g.nodes g.nodes.getLast? srcs with
  | Except.error e => Except.error e
  | Except.ok _ =>
  match assembleTargets g with
  | Except.error e => Except.error e
  | Except.ok tgts =>
  match g.nodes.find? (fun n => ¬ tgts.contains n) with
  | some n => Except.error (ValidationError.unreachable n)
  | none =>
  match tgts.find? (fun t => ¬ g.nodes.contains t ∧ t ≠ END) with
  | some t => Except.error (ValidationError.unknownTarget t)
  | none =>
  match interrupt.find? (fun n => ¬ g.nodes.contains n) with
  | some n => Except.error (ValidationError.unknownInterrupt n)
  | none => Except.ok { g with compiled := true }

/-- A lowered unit of the compiled plan, embedding the PregelNode held in
CompiledGraph.nodes: its trigger channels, its read channels, its
ChannelWrite stages (each a list of written channels: the own-output write
attached in attach_node and the terminal writes appended in attach_edge),
and the branch writer stages attached in attach_branch. -/
structure PNode where
  triggers : List String
  channels : List String
  writers : List (List String)
  branchStages : List BranchStage
deriving DecidableEq, Inhabited

/-- The compiled plan: the unit map (association list in insertion order),
the channel registry (dict keys in insertion order) and the stream channel
list. -/
structure CompiledGraph where
  nodes : List (String × PNode)
  channels : List String
  streamChannels : List String
deriving DecidableEq, Inhabited

/-- Applies an update to the unit stored under a key, embedding a mutation of
self.nodes of key.  Where the key is absent this is the identity; the Python
code would raise KeyError there, so theorems below restrict themselves to
inputs on which every updated key is present. -/
def updatePNode (ns : List (String × PNode)) (k : String) (f : PNode → PNode) :
    List (String × PNode) :=
  ns.map (fun p => if p.1 = k then (p.1, f p.2) else p)

/-- Modelled from the spec: Channel.subscribe_to lives in the external pregel
module (not under src); per the spec the entry channel is the single seed for
whichever nodes declare it as a trigger, so the hidden entry unit created by
attach_branch for a branch rooted at the entry is a unit triggered by and
reading the entry channel, holding no writers. -/
def subscribeToStart : PNode :=
  { triggers := [START], channels := [START], writers := [], branchStages := [] }

/-- Embeds CompiledGraph.attach_node: allocate the output channel named after
the node, store a unit with empty triggers whose pipeline ends in the
unconditional write to its own output channel, and append the node to the
stream channels. -/
def attach_node (c : CompiledGraph) (key : String) : CompiledGraph :=
  { c with
    channels := insertUniq c.channels key
    nodes := c.nodes ++ [(key, { triggers := [], channels := [], writers := [[key]], branchStages := [] })]
    streamChannels := c.streamChannels ++ [key] }

/-- Embeds CompiledGraph.attach_edge: an edge into the terminal appends a
terminal write to the source unit; any other edge appends the source output
channel to the trigger and read channels of the target unit. -/
def attach_edge (c : CompiledGraph) (s e : String) : CompiledGraph :=
  if e = END then
    { c with nodes := updatePNode c.nodes s (fun pn => { pn with writers := pn.writers ++ [[END]] }) }
  else
    { c with
      nodes := updatePNode c.nodes e
        (fun pn => { pn with triggers := pn.triggers ++ [s], channels := pn.channels ++ [s] }) }

/-- The hidden entry unit created by attach_branch when the branch source is
the entry identifier and no unit exists for it yet. -/
def addHiddenStart (c : CompiledGraph) (start : String) : CompiledGraph :=
  if start = START ∧ ¬ (c.nodes.map Prod.fst).contains start then
    { c with nodes := c.nodes ++ [(START, subscribeToStart)] }
  else c

/-- The attachment of the branch writer stage to the source unit, embedding
the pipeline extension written as self.nodes of start |= branch.run. -/
def addStage (c : CompiledGraph) (start name : String) (b : Branch) : CompiledGraph :=
  { c with
    nodes := updatePNode c.nodes start
      (fun pn => { pn with branchStages := pn.branchStages ++ [BranchStage.mk start name b] }) }

/-- The destination universe of a branch at attachment time: the values of
the ends table when it is truthy (non-empty), otherwise every key of the
compiled unit map — the Python guard branch.ends is a truthiness test, so an
explicit empty table also falls through to the full universe. -/
def branchDests (c : CompiledGraph) (b : Branch) : List String :=
  match b.ends with
  | some (q :: m) => (q :: m).map Prod.snd
  | _ => c.nodes.map Prod.fst

/-- One iteration of the reader-attachment loop of attach_branch: a
non-terminal destination receives its dedicated channel in the registry and
in its trigger and read channel lists. -/
def attachBranchReader (start name : String) (acc : CompiledGraph) (e : String) : CompiledGraph :=
  if e ≠ END then
    { acc with
      channels := insertUniq acc.channels (branchChannel start name e)
      nodes := updatePNode acc.nodes e
        (fun pn => { pn with
          triggers := pn.triggers ++ [branchChannel start name e]
          channels := pn.channels ++ [branchChannel start name e] }) }
  else acc

/-- Embeds CompiledGraph.attach_branch: optionally create the hidden entry
unit, append the branch writer stage to the source unit, then run the
reader-attachment loop over the destination universe computed from the
unit map as it stands after those two steps. -/
def attach_branch (c : CompiledGraph) (start name : String) (b : Branch) : CompiledGraph :=
  let c2 := addStage (addHiddenStart c start) start name b
  (branchDests c2 b).foldl (attachBranchReader start name) c2

/-- The attachment phase of Graph.compile: starting from the registry holding
the entry and terminal system channels, attach every node, then every edge,
then every branch, in declaration order. -/
def attachEdgePair (acc : CompiledGraph) (e : String × String) : CompiledGraph :=
  attach_edge acc e.1 e.2

/-- One named-branch attachment, the body of the inner branch loop of
Graph.compile. -/
def attachNamedBranch (start : String) (acc : CompiledGraph) (q : String × Branch) :
    CompiledGraph :=
  attach_branch acc start q.1 q.2

/-- Attachment of all branches of one source, the body of the outer branch
loop of Graph.compile. -/
def attachSourceBranches (acc : CompiledGraph) (p : String × List (String × Branch)) :
    CompiledGraph :=
  p.2.foldl (attachNamedBranch p.1) acc

/-- The initial compiled object of Graph.compile: empty unit map, the entry
and terminal system channels, empty stream channel list. -/
def initialCompiled : CompiledGraph :=
  { nodes := [], channels := [START, END], streamChannels := [] }

def compileAttach (g : Graph) : CompiledGraph :=
  let c1 := g.nodes.foldl attach_node initialCompiled
  let c2 := g.edges.foldl attachEdgePair c1
  g.branches.foldl attachSourceBranches c2

/-- Embeds Graph.compile: validate (with the concatenated interrupt lists),
then attach nodes, edges and branches.  The trailing Pregel-level
self-validation of the compiled object lives in the external pregel module
and is the identity on the plan data modelled here. -/
def compileGraph (g : Graph) (interrupt_before interrupt_after : List String) :
    Except ValidationError CompiledGraph :=
  match validate g (interrupt_before ++ interrupt_after) with
  | Except.error e => Except.error e
  | Except.ok _ => Except.ok (compileAttach g)

/-- The unit keys of a plan. -/
def nodeKeys (c : CompiledGraph) : List String :=
  c.nodes.map Prod.fst

/-- The trigger set of the unit stored under a key (empty when absent). -/
def triggersOf (p : CompiledGraph) (k : String) : List String :=
  ((lookupKey k p.nodes).getD default).triggers

/-- The ChannelWrite stages of the unit stored under a key. -/
def writersOf (p : CompiledGraph) (k : String) : List (List String) :=
  ((lookupKey k p.nodes).getD default).writers

/-- The branch writer stages of the unit stored under a key. -/
def stagesOf (p : CompiledGraph) (k : String) : List BranchStage :=
  ((lookupKey k p.nodes).getD default).branchStages

/-- The plan a graph compiles to (default plan when compilation fails). -/
def planOf (g : Graph) : CompiledGraph :=
  (compileGraph g [] []).toOption.getD default

/-- The destinations a branch writer stage can resolve to: any value of a
truthy (non-empty) ends table, or any label at all when the table is absent
or explicitly empty (the routing function output is then used verbatim,
mirroring the truthiness test in Branch route). -/
def allowedDest (b : Branch) (dst : String) : Prop :=
  match b.ends with
  | some (q :: m) => dst ∈ ((q :: m).map Prod.snd)
  | _ => True

/-- A branch writer stage can produce a write to a channel if some resolvable
destination lowers to that channel under branch_writer. -/
def stageMayWrite (st : BranchStage) (c : String) : Prop :=
  ∃ dst, allowedDest st.branch dst ∧
    c = (if dst = END then END else branchChannel st.src st.name dst)

/-- A lowered unit holds a writer to a channel if one of its ChannelWrite
stages contains the channel or one of its branch writer stages can write
to it. -/
def unitMayWrite (pn : PNode) (c : String) : Prop :=
  (∃ w ∈ pn.writers, c ∈ w) ∨ (∃ st ∈ pn.branchStages, stageMayWrite st c)

/-- A string avoiding the colon separator of the branch-channel name format. -/
def colonFree (s : String) : Prop :=
  ':' ∉ s.data

instance decidableColonFree (s : String) : Decidable (colonFree s) :=
  inferInstanceAs (Decidable (':' ∉ s.data))

/-- The linear example graph of the spec testable properties: nodes A and B,
an entry edge to A, an edge from A to B, and a finish edge from B. -/
def gLinear : Graph :=
  { nodes := ["A", "B"], edges := [(START, "A"), ("A", "B"), ("B", END)],
    branches := [], support_multiple_edges := false, compiled := false }

/-- A graph whose branch carries a convergence node: the branch on A routes
label x to B and declares T as the then node; T separately holds the finish
edge. -/
def gThen : Graph :=
  { nodes := ["A", "B", "T"], edges := [(START, "A"), ("T", END)],
    branches := [("A", [("condition", { ends := some [("x", "B")], thn := some "T" })])],
    support_multiple_edges := false, compiled := false }

/-- A graph whose branch on A has neither an ends table nor a then node,
with a finish edge on B so that validation passes. -/
def gNoEnds : Graph :=
  { nodes := ["A", "B"], edges := [(START, "A"), ("B", END)],
    branches := [("A", [("condition", { ends := none, thn := none })])],
    support_multiple_edges := false, compiled := false }

/-- A graph where B is reachable only through a branch without ends and
without then: nothing else gives B an outgoing transition. -/
def gDead : Graph :=
  { nodes := ["A", "B"], edges := [(START, "A")],
    branches := [("A", [("condition", { ends := none, thn := none })])],
    support_multiple_edges := false, compiled := false }

/-- A graph with two finish edges: the branch on A fans out to B and C and
each of them holds a finish edge, so two distinct units write the terminal
channel. -/
def gTwoFinish : Graph :=
  { nodes := ["A", "B", "C"], edges := [(START, "A"), ("B", END), ("C", END)],
    branches := [("A", [("condition", { ends := some [("b", "B"), ("c", "C")], thn := none })])],
    support_multiple_edges := false, compiled := false }

/-- The remapping branch of the routing example: label x goes to A,
label y goes to B. -/
def bRoute : Branch :=
  { ends := some [("x", "A"), ("y", "B")], thn := none }

/-- The routing example graph: a branch on S remaps x to A and y to B, and A
and B hold finish edges. -/
def gRoute : Graph :=
  { nodes := ["S", "A", "B"], edges := [(START, "S"), ("A", END), ("B", END)],
    branches := [("S", [("condition", bRoute)])],
    support_multiple_edges := false, compiled := false }

/-- The routing example graph before its branch is declared. -/
def gRoutePre : Graph :=
  { gRoute with branches := [] }

/-- The linear example graph with the compiled flag raised, as left behind by
a successful validation. -/
def gLinearCompiled : Graph :=
  { gLinear with compiled := true }

/-- A graph whose branch on A has a then node T but no ends table; B carries
an edge into T and T carries the finish edge, so the graph validates. -/
def gConv : Graph :=
  { nodes := ["A", "B", "T"], edges := [(START, "A"), ("B", "T"), ("T", END)],
    branches := [("A", [("condition", { ends := none, thn := some "T" })])],
    support_multiple_edges := false, compiled := false }

/-- A graph whose branch on A carries an explicit but empty ends table: the
run-time truthiness test treats it like an absent table. -/
def gEmptyEnds : Graph :=
  { nodes := ["A", "B"], edges := [(START, "A"), ("A", "B"), ("B", END)],
    branches := [("A", [("condition", { ends := some [], thn := none })])],
    support_multiple_edges := false, compiled := false }

/-- A builder state with an edge but no declared node: the node loop of
validate never runs and its loop variable stays unbound. -/
def gNoNodes : Graph :=
  { nodes := [], edges := [("A", "B")], branches := [],
    support_multiple_edges := false, compiled := false }

/-- Growth order on lowered units: the attachment steps of the compiler only
ever append to the trigger list, the writer list and the stage list of a
unit. -/
def pnodeLE (pn pn2 : PNode) : Prop :=
  (∀ t, t ∈ pn.triggers → t ∈ pn2.triggers) ∧
  (∀ w, w ∈ pn.writers → w ∈ pn2.writers) ∧
  (∀ st, st ∈ pn.branchStages → st ∈ pn2.branchStages)

/-- Growth order on plans: channels are only ever added, units are only ever
added or grown. -/
def planLE (c c2 : CompiledGraph) : Prop :=
  (∀ ch, ch ∈ c.channels → ch ∈ c2.channels) ∧
  (∀ n pn, lookupKey n c.nodes = some pn →
    ∃ pn2, lookupKey n c2.nodes = some pn2 ∧ pnodeLE pn pn2)

/-- A branch registered in the builder under a source and a name. -/
def branchDeclared (g : Graph) (S nm : String) (b : Branch) : Prop :=
  ∃ brs, (S, brs) ∈ g.branches ∧ (nm, b) ∈ brs

/-- Invariant of the attachment phase describing every writer a unit can
hold: its ChannelWrite stages write its own output channel or the terminal
channel, its branch stages all stem from branches of the builder declared on
its own key, and its key is a declared node or the entry identifier. -/
def WriterInv (g : Graph) (c : CompiledGraph) : Prop :=
  ∀ k pn, (k, pn) ∈ c.nodes →
    (∀ w, w ∈ pn.writers → w = [k] ∨ w = [END]) ∧
    (∀ st, st ∈ pn.branchStages → st.src = k ∧ branchDeclared g k st.name st.branch) ∧
    (k ∈ g.nodes ∨ k = START)

/-- Invariant of the attachment phase describing the channel registry: every
channel is the entry channel, the terminal channel, the output channel of a
declared node, or a dedicated destination channel of a declared branch for a
destination that branch can resolve. -/
def ChanInv (g : Graph) (c : CompiledGraph) : Prop :=
  ∀ ch, ch ∈ c.channels → ch = START ∨ ch = END ∨ ch ∈ g.nodes ∨
    ∃ S nm b dst, branchDeclared g S nm b ∧ allowedDest b dst ∧ dst ≠ END ∧
      ch = branchChannel S nm dst


/-! ### Basic lemmas on the set-like and dict-like list operations -/

theorem mem_insertUniq_self (l : List String) (x : String) : x ∈ insertUniq l x := by
  unfold insertUniq
  split
  · next h => exact List.elem_iff.mp h
  · exact List.mem_append_right _ (List.mem_singleton.mpr rfl)

theorem mem_insertUniq_of_mem (l : List String) (x y : String) (h : x ∈ l) :
    x ∈ insertUniq l y := by
  unfold insertUniq
  split
  · exact h
  · exact List.mem_append_left _ h

theorem mem_dedupAppend_of_mem (xs : List String) :
    ∀ (l : List String) (x : String), x ∈ l → x ∈ dedupAppend l xs := by
  induction xs with
  | nil => intro l x h; exact h
  | cons y ys ih =>
    intro l x h
    exact ih (insertUniq l y) x (mem_insertUniq_of_mem l x y h)

theorem mem_dedupAppend_of_mem_right (xs : List String) :
    ∀ (l : List String) (x : String), x ∈ xs → x ∈ dedupAppend l xs := by
  induction xs with
  | nil => intro l x h; cases h
  | cons y ys ih =>
    intro l x h
    rcases List.mem_cons.mp h with h1 | h2
    · subst h1
      exact mem_dedupAppend_of_mem ys (insertUniq l x) x (mem_insertUniq_self l x)
    · exact ih (insertUniq l y) x h2

theorem lookupKey_cons {α : Type _} (k k2 : String) (v : α) (rest : List (String × α)) :
    lookupKey k ((k2, v) :: rest) = if k = k2 then some v else lookupKey k rest := rfl

theorem lookupKey_append_left {α : Type _} (k : String) :
    ∀ (ns ms : List (String × α)) (v : α),
      lookupKey k ns = some v → lookupKey k (ns ++ ms) = some v := by
  intro ns
  induction ns with
  | nil => intro ms v h; cases h
  | cons p rest ih =>
    obtain ⟨k2, v2⟩ := p
    intro ms v h
    rw [List.cons_append, lookupKey_cons]
    rw [lookupKey_cons] at h
    by_cases he : k = k2
    · simpa [he] using h
    · simp only [he, if_false] at h ⊢
      exact ih ms v h

theorem lookupKey_append_none {α : Type _} (k : String) :
    ∀ (ns ms : List (String × α)),
      lookupKey k ns = none → lookupKey k (ns ++ ms) = lookupKey k ms := by
  intro ns
  induction ns with
  | nil => intro ms _; rfl
  | cons p rest ih =>
    obtain ⟨k2, v2⟩ := p
    intro ms h
    rw [List.cons_append, lookupKey_cons]
    rw [lookupKey_cons] at h
    by_cases he : k = k2
    · simp [he] at h
    · simp only [he, if_false] at h ⊢
      exact ih ms h

theorem lookupKey_updatePNode (k n : String) (f : PNode → PNode) :
    ∀ ns : List (String × PNode),
      lookupKey n (updatePNode ns k f) =
        (lookupKey n ns).map (fun pn => if n = k then f pn else pn) := by
  intro ns
  induction ns with
  | nil => rfl
  | cons p rest ih =>
    obtain ⟨k2, v2⟩ := p
    show lookupKey n ((if k2 = k then (k2, f v2) else (k2, v2)) :: updatePNode rest k f) = _
    by_cases hk2 : k2 = k
    · subst hk2
      by_cases hn : n = k2
      · subst hn
        simp [lookupKey_cons]
      · simp [lookupKey_cons, hn, ih]
    · by_cases hn : n = k2  -- second outer case
      · subst hn
        simp [lookupKey_cons, hk2]
      · simp [lookupKey_cons, hk2, hn, ih]

theorem lookupKey_mem {α : Type _} (k : String) :
    ∀ (ns : List (String × α)) (v : α), lookupKey k ns = some v → (k, v) ∈ ns := by
  intro ns
  induction ns with
  | nil => intro v h; cases h
  | cons p rest ih =>
    obtain ⟨k2, v2⟩ := p
    intro v h
    rw [lookupKey_cons] at h
    by_cases he : k = k2
    · simp only [he, if_true] at h
      cases h
      subst he
      exact List.mem_cons_self _ _
    · simp only [he, if_false] at h
      exact List.mem_cons_of_mem _ (ih v h)

theorem lookupKey_isSome_of_mem {α : Type _} (k : String) (v : α) :
    ∀ ns : List (String × α), (k, v) ∈ ns → (lookupKey k ns).isSome := by
  intro ns
  induction ns with
  | nil => intro h; cases h
  | cons p rest ih =>
    obtain ⟨k2, v2⟩ := p
    intro h
    rw [lookupKey_cons]
    by_cases he : k = k2
    · simp [he]
    · simp only [he, if_false]
      rcases List.mem_cons.mp h with h1 | h2
      · cases h1; simp at he
      · exact ih h2

theorem mem_updatePNode (ns : List (String × PNode)) (k : String) (f : PNode → PNode)
    (k2 : String) (pn2 : PNode) (h : (k2, pn2) ∈ updatePNode ns k f) :
    ∃ pn, (k2, pn) ∈ ns ∧ pn2 = (if k2 = k then f pn else pn) := by
  unfold updatePNode at h
  rcases List.mem_map.mp h with ⟨p, hp, heq⟩
  obtain ⟨k3, v3⟩ := p
  by_cases he : k3 = k
  · simp only [he, if_true] at heq
    cases heq
    exact ⟨v3, he ▸ hp, by simp⟩
  · simp only [he, if_false] at heq
    cases heq
    exact ⟨pn2, hp, by simp [he]⟩

/-! ### Generic fold preservation lemmas -/

theorem foldl_preserve {σ β : Type _} (P : σ → Prop) (f : σ → β → σ)
    (h : ∀ s b, P s → P (f s b)) :
    ∀ (bs : List β) (s : σ), P s → P (bs.foldl f s) := by
  intro bs
  induction bs with
  | nil => intro s hs; exact hs
  | cons b rest ih => intro s hs; exact ih (f s b) (h s b hs)

theorem foldl_preserve_mem {σ β : Type _} (P : σ → Prop) (f : σ → β → σ) :
    ∀ (bs : List β) (s : σ), (∀ s2 b2, b2 ∈ bs → P s2 → P (f s2 b2)) → P s → P (bs.foldl f s) := by
  intro bs
  induction bs with
  | nil => intro s _ hs; exact hs
  | cons b rest ih =>
    intro s h hs
    exact ih (f s b) (fun s2 b2 hb2 => h s2 b2 (List.mem_cons_of_mem _ hb2))
      (h s b (List.mem_cons_self _ _) hs)

theorem foldl_establish {σ β : Type _} (P Q : σ → Prop) (f : σ → β → σ) (b0 : β)
    (hQ : ∀ s b, Q s → Q (f s b))
    (hP : ∀ s b, P s → P (f s b))
    (hest : ∀ s, Q s → P (f s b0)) :
    ∀ (bs : List β) (s : σ), b0 ∈ bs → Q s → P (bs.foldl f s) := by
  intro bs
  induction bs with
  | nil => intro s h; cases h
  | cons b rest ih =>
    intro s hmem hQs
    rcases List.mem_cons.mp hmem with h1 | h2
    · subst h1
      exact foldl_preserve P f hP rest (f s b0) (hest s hQs)
    · exact ih (f s b) h2 (hQ s b hQs)

/-! ### Monotonicity of the attachment steps -/

theorem pnodeLE_refl (pn : PNode) : pnodeLE pn pn :=
  ⟨fun _ h => h, fun _ h => h, fun _ h => h⟩

theorem pnodeLE_trans {a b c : PNode} (h1 : pnodeLE a b) (h2 : pnodeLE b c) : pnodeLE a c :=
  ⟨fun t ht => h2.1 t (h1.1 t ht), fun w hw => h2.2.1 w (h1.2.1 w hw),
   fun st hst => h2.2.2 st (h1.2.2 st hst)⟩

theorem planLE_refl (c : CompiledGraph) : planLE c c :=
  ⟨fun _ h => h, fun _ pn h => ⟨pn, h, pnodeLE_refl pn⟩⟩

theorem planLE_trans {a b c : CompiledGraph} (h1 : planLE a b) (h2 : planLE b c) : planLE a c := by
  refine ⟨fun ch hch => h2.1 ch (h1.1 ch hch), fun n pn h => ?_⟩
  rcases h1.2 n pn h with ⟨pn2, h2l, hle⟩
  rcases h2.2 n pn2 h2l with ⟨pn3, h3l, hle2⟩
  exact ⟨pn3, h3l, pnodeLE_trans hle hle2⟩

theorem nodes_append_le (c : CompiledGraph) (q : String × PNode)
    (chs : List String) (sts : List String)
    (hch : ∀ ch, ch ∈ c.channels → ch ∈ chs) :
    planLE c { nodes := c.nodes ++ [q], channels := chs, streamChannels := sts } := by
  refine ⟨hch, fun n pn h => ⟨pn, ?_, pnodeLE_refl pn⟩⟩
  exact lookupKey_append_left n c.nodes [q] pn h

theorem updatePNode_le (c : CompiledGraph) (k : String) (f : PNode → PNode)
    (chs sts : List String)
    (hch : ∀ ch, ch ∈ c.channels → ch ∈ chs)
    (hf : ∀ pn, pnodeLE pn (f pn)) :
    planLE c { nodes := updatePNode c.nodes k f, channels := chs, streamChannels := sts } := by
  refine ⟨hch, fun n pn h => ?_⟩
  rw [lookupKey_updatePNode]
  rw [h]
  by_cases hn : n = k
  · exact ⟨f pn, by simp [hn], hf pn⟩
  · exact ⟨pn, by simp [hn], pnodeLE_refl pn⟩

theorem attach_node_le (c : CompiledGraph) (key : String) : planLE c (attach_node c key) := by
  unfold attach_node
  exact nodes_append_le c _ _ _ (fun ch hch => mem_insertUniq_of_mem _ ch key hch)

theorem attach_edge_le (c : CompiledGraph) (s e : String) : planLE c (attach_edge c s e) := by
  unfold attach_edge
  split
  · exact updatePNode_le c s _ _ _ (fun _ h => h)
      (fun pn => ⟨fun _ h => h, fun w hw => List.mem_append_left _ hw, fun _ h => h⟩)
  · exact updatePNode_le c e _ _ _ (fun _ h => h)
      (fun pn => ⟨fun t ht => List.mem_append_left _ ht, fun _ h => h, fun _ h => h⟩)

theorem addHiddenStart_le (c : CompiledGraph) (start : String) :
    planLE c (addHiddenStart c start) := by
  unfold addHiddenStart
  split
  · exact nodes_append_le c _ _ _ (fun _ h => h)
  · exact planLE_refl c

theorem addStage_le (c : CompiledGraph) (start name : String) (b : Branch) :
    planLE c (addStage c start name b) :=
  updatePNode_le c start _ _ _ (fun _ h => h)
    (fun pn => ⟨fun _ h => h, fun _ h => h, fun st hst => List.mem_append_left _ hst⟩)

theorem attachBranchReader_le (start name : String) (acc : CompiledGraph) (e : String) :
    planLE acc (attachBranchReader start name acc e) := by
  unfold attachBranchReader
  split
  · exact updatePNode_le acc e _ _ _ (fun ch hch => mem_insertUniq_of_mem _ ch _ hch)
      (fun pn => ⟨fun t ht => List.mem_append_left _ ht, fun _ h => h, fun _ h => h⟩)
  · exact planLE_refl acc

theorem attach_branch_le (c : CompiledGraph) (start name : String) (b : Branch) :
    planLE c (attach_branch c start name b) := by
  unfold attach_branch
  apply foldl_preserve (planLE c) (attachBranchReader start name)
  · intro s2 e2 h
    exact planLE_trans h (attachBranchReader_le start name s2 e2)
  · exact planLE_trans (addHiddenStart_le c start) (addStage_le _ start name b)

theorem foldl_planLE {β : Type _} (f : CompiledGraph → β → CompiledGraph)
    (hstep : ∀ s b, planLE s (f s b)) (bs : List β) (s : CompiledGraph) :
    planLE s (bs.foldl f s) :=
  foldl_preserve (planLE s) f (fun s2 b h => planLE_trans h (hstep s2 b)) bs s (planLE_refl s)

theorem attachEdgePair_le (s : CompiledGraph) (e : String × String) :
    planLE s (attachEdgePair s e) :=
  attach_edge_le s e.1 e.2

theorem attachNamedBranch_le (start : String) (s : CompiledGraph) (q : String × Branch) :
    planLE s (attachNamedBranch start s q) :=
  attach_branch_le s start q.1 q.2

theorem attachSourceBranches_le (s : CompiledGraph) (p : String × List (String × Branch)) :
    planLE s (attachSourceBranches s p) :=
  foldl_planLE (attachNamedBranch p.1) (attachNamedBranch_le p.1) p.2 s

theorem compileGraph_ok (g : Graph) (ib ia : List String) (p : CompiledGraph)
    (h : compileGraph g ib ia = Except.ok p) : p = compileAttach g := by
  unfold compileGraph at h
  cases hv : validate g (ib ++ ia) with
  | error e => rw [hv] at h; cases h
  | ok g2 => rw [hv] at h; cases h; rfl

/-! ### Establishment lemmas: what the attachment phase creates -/

theorem lookupKey_isSome_of_mem_keys {α : Type _} (k : String) :
    ∀ ns : List (String × α), k ∈ ns.map Prod.fst → (lookupKey k ns).isSome := by
  intro ns
  induction ns with
  | nil => intro h; cases h
  | cons p rest ih =>
    obtain ⟨k2, v2⟩ := p
    intro h
    rw [lookupKey_cons]
    by_cases he : k = k2
    · simp [he]
    · simp only [he, if_false]
      rcases List.mem_cons.mp h with h1 | h2
      · exact absurd h1 he
      · exact ih h2

theorem mem_keys_of_lookupKey_isSome {α : Type _} (k : String) :
    ∀ ns : List (String × α), (lookupKey k ns).isSome → k ∈ ns.map Prod.fst := by
  intro ns
  induction ns with
  | nil => intro h; cases h
  | cons p rest ih =>
    obtain ⟨k2, v2⟩ := p
    intro h
    rw [lookupKey_cons] at h
    by_cases he : k = k2
    · simp [he]
    · simp only [he, if_false] at h
      exact List.mem_cons_of_mem _ (ih h)

theorem isSome_mono {c c2 : CompiledGraph} (S : String) (hle : planLE c c2)
    (h : (lookupKey S c.nodes).isSome) : (lookupKey S c2.nodes).isSome := by
  obtain ⟨pn, hpn⟩ := Option.isSome_iff_exists.mp h
  rcases hle.2 S pn hpn with ⟨pn2, hl2, _⟩
  rw [hl2]
  rfl

theorem stageP_mono {c c2 : CompiledGraph} (S nm : String) (b : Branch)
    (hle : planLE c c2)
    (h : ∃ pn, lookupKey S c.nodes = some pn ∧ BranchStage.mk S nm b ∈ pn.branchStages) :
    ∃ pn, lookupKey S c2.nodes = some pn ∧ BranchStage.mk S nm b ∈ pn.branchStages := by
  rcases h with ⟨pn, hl, hst⟩
  rcases hle.2 S pn hl with ⟨pn2, hl2, hle2⟩
  exact ⟨pn2, hl2, hle2.2.2 _ hst⟩

theorem lookupKey_attach_node_self (c : CompiledGraph) (n : String)
    (h : lookupKey n c.nodes = none) :
    lookupKey n (attach_node c n).nodes =
      some { triggers := [], channels := [], writers := [[n]], branchStages := [] } := by
  unfold attach_node
  simp only
  rw [lookupKey_append_none n c.nodes _ h, lookupKey_cons, if_pos rfl]

theorem lookupKey_attach_node_other (c : CompiledGraph) (n k : String) (hk : n ≠ k)
    (h : lookupKey n c.nodes = none) :
    lookupKey n (attach_node c k).nodes = none := by
  unfold attach_node
  simp only
  rw [lookupKey_append_none n c.nodes _ h, lookupKey_cons, if_neg hk]
  rfl

theorem node_unit_writer :
    ∀ (ks : List String) (c : CompiledGraph) (n : String), n ∈ ks →
      lookupKey n c.nodes = none →
      ∃ pn, lookupKey n ((ks.foldl attach_node c).nodes) = some pn ∧ [n] ∈ pn.writers := by
  intro ks
  induction ks with
  | nil => intro c n h _; cases h
  | cons k rest ih =>
    intro c n hmem hnone
    by_cases hk : n = k
    · subst hk
      have hl := lookupKey_attach_node_self c n hnone
      have hle := foldl_planLE attach_node attach_node_le rest (attach_node c n)
      rcases hle.2 n _ hl with ⟨pn2, hl2, hle2⟩
      exact ⟨pn2, hl2, hle2.2.1 [n] (List.mem_singleton.mpr rfl)⟩
    · rcases List.mem_cons.mp hmem with h1 | h2
      · exact absurd h1 hk
      · exact ih (attach_node c k) n h2 (lookupKey_attach_node_other c n k hk hnone)

theorem compileAttach_node_writer (g : Graph) (n : String) (hn : n ∈ g.nodes) :
    ∃ pn, lookupKey n (compileAttach g).nodes = some pn ∧ [n] ∈ pn.writers := by
  unfold compileAttach
  simp only
  rcases node_unit_writer g.nodes initialCompiled n hn rfl with ⟨pn, hl, hw⟩
  have hle1 := foldl_planLE attachEdgePair attachEdgePair_le g.edges
    (g.nodes.foldl attach_node initialCompiled)
  rcases hle1.2 n pn hl with ⟨pn2, hl2, hle2⟩
  have hle3 := foldl_planLE attachSourceBranches attachSourceBranches_le g.branches
    (g.edges.foldl attachEdgePair (g.nodes.foldl attach_node initialCompiled))
  rcases hle3.2 n pn2 hl2 with ⟨pn3, hl3, hle4⟩
  exact ⟨pn3, hl3, hle4.2.1 [n] (hle2.2.1 [n] hw)⟩

theorem addHiddenStart_isSome (c : CompiledGraph) (S : String)
    (h : (lookupKey S c.nodes).isSome ∨ S = START) :
    (lookupKey S (addHiddenStart c S).nodes).isSome := by
  unfold addHiddenStart
  split
  · next hcond =>
    cases hl : lookupKey S c.nodes with
    | some pn =>
      rw [lookupKey_append_left _ _ _ _ hl]
      rfl
    | none =>
      rw [lookupKey_append_none _ _ _ hl]
      simp [lookupKey_cons, hcond.1]
  · next hcond =>
    rcases h with h | h
    · exact h
    · subst h
      have hmem : (c.nodes.map Prod.fst).contains START := by
        by_contra hc
        exact hcond ⟨rfl, hc⟩
      exact lookupKey_isSome_of_mem_keys _ _ (List.elem_iff.mp hmem)

theorem addStage_establish (c : CompiledGraph) (S nm : String) (b : Branch)
    (h : (lookupKey S c.nodes).isSome) :
    ∃ pn, lookupKey S (addStage c S nm b).nodes = some pn ∧
      BranchStage.mk S nm b ∈ pn.branchStages := by
  obtain ⟨pn, hpn⟩ := Option.isSome_iff_exists.mp h
  unfold addStage
  simp only
  rw [lookupKey_updatePNode, hpn]
  refine ⟨_, rfl, ?_⟩
  simp

theorem attach_branch_stage (c : CompiledGraph) (S nm : String) (b : Branch)
    (h : (lookupKey S c.nodes).isSome ∨ S = START) :
    ∃ pn, lookupKey S (attach_branch c S nm b).nodes = some pn ∧
      BranchStage.mk S nm b ∈ pn.branchStages := by
  unfold attach_branch
  simp only
  have h1 := addHiddenStart_isSome c S h
  rcases addStage_establish (addHiddenStart c S) S nm b h1 with ⟨pn, hl, hst⟩
  exact stageP_mono S nm b
    (foldl_planLE (attachBranchReader S nm) (attachBranchReader_le S nm) _ _) ⟨pn, hl, hst⟩

theorem branches_fold_stage (S nm : String) (b : Branch) (brs : List (String × Branch))
    (hb : (nm, b) ∈ brs) :
    ∀ (bs : List (String × List (String × Branch))) (c : CompiledGraph),
      (S, brs) ∈ bs →
      ((lookupKey S c.nodes).isSome ∨ S = START) →
      ∃ pn, lookupKey S (bs.foldl attachSourceBranches c).nodes = some pn ∧
        BranchStage.mk S nm b ∈ pn.branchStages := by
  intro bs c hmem hQ
  refine foldl_establish
    (fun s => ∃ pn, lookupKey S s.nodes = some pn ∧ BranchStage.mk S nm b ∈ pn.branchStages)
    (fun s => (lookupKey S s.nodes).isSome ∨ S = START)
    attachSourceBranches (S, brs) ?_ ?_ ?_ bs c hmem hQ
  · intro s p h
    rcases h with h | h
    · exact Or.inl (isSome_mono S (attachSourceBranches_le s p) h)
    · exact Or.inr h
  · intro s p h
    exact stageP_mono S nm b (attachSourceBranches_le s p) h
  · intro s hQs
    refine foldl_establish
      (fun s2 => ∃ pn, lookupKey S s2.nodes = some pn ∧ BranchStage.mk S nm b ∈ pn.branchStages)
      (fun s2 => (lookupKey S s2.nodes).isSome ∨ S = START)
      (attachNamedBranch S) (nm, b) ?_ ?_ ?_ brs s hb hQs
    · intro s2 q h
      rcases h with h | h
      · exact Or.inl (isSome_mono S (attachNamedBranch_le S s2 q) h)
      · exact Or.inr h
    · intro s2 q h
      exact stageP_mono S nm b (attachNamedBranch_le S s2 q) h
    · intro s2 hQ2
      have h1 := addHiddenStart_isSome s2 S hQ2
      rcases addStage_establish (addHiddenStart s2 S) S nm b h1 with ⟨pn, hl, hst⟩
      exact stageP_mono S nm b
        (foldl_planLE (attachBranchReader S nm) (attachBranchReader_le S nm) _ _) ⟨pn, hl, hst⟩

theorem compileAttach_stage (g : Graph) (S nm : String) (b : Branch)
    (brs : List (String × Branch)) (hmem : (S, brs) ∈ g.branches) (hb : (nm, b) ∈ brs)
    (hS : S ∈ g.nodes ∨ S = START) :
    ∃ pn, lookupKey S (compileAttach g).nodes = some pn ∧
      BranchStage.mk S nm b ∈ pn.branchStages := by
  unfold compileAttach
  simp only
  apply branches_fold_stage S nm b brs hb g.branches _ hmem
  rcases hS with hS | hS
  · left
    rcases node_unit_writer g.nodes initialCompiled S hS rfl with ⟨pn, hl, _⟩
    apply isSome_mono S (foldl_planLE attachEdgePair attachEdgePair_le g.edges _)
    rw [hl]
    rfl
  · exact Or.inr hS

theorem readerP_mono {c c2 : CompiledGraph} (ch n : String) (hle : planLE c c2)
    (h : ch ∈ c.channels ∧ ∃ pn, lookupKey n c.nodes = some pn ∧ ch ∈ pn.triggers) :
    ch ∈ c2.channels ∧ ∃ pn, lookupKey n c2.nodes = some pn ∧ ch ∈ pn.triggers := by
  refine ⟨hle.1 _ h.1, ?_⟩
  rcases h.2 with ⟨pn, hl, ht⟩
  rcases hle.2 n pn hl with ⟨pn2, hl2, hle2⟩
  exact ⟨pn2, hl2, hle2.1 _ ht⟩

theorem attachBranchReader_fold_establish (S nm n : String) (hnE : n ≠ END) :
    ∀ (ds : List String) (c : CompiledGraph), n ∈ ds → (lookupKey n c.nodes).isSome →
      branchChannel S nm n ∈ (ds.foldl (attachBranchReader S nm) c).channels ∧
      ∃ pn, lookupKey n (ds.foldl (attachBranchReader S nm) c).nodes = some pn ∧
        branchChannel S nm n ∈ pn.triggers := by
  intro ds c hmem hQ
  refine foldl_establish
    (fun s => branchChannel S nm n ∈ s.channels ∧
      ∃ pn, lookupKey n s.nodes = some pn ∧ branchChannel S nm n ∈ pn.triggers)
    (fun s => (lookupKey n s.nodes).isSome)
    (attachBranchReader S nm) n ?_ ?_ ?_ ds c hmem hQ
  · intro s e h
    exact isSome_mono n (attachBranchReader_le S nm s e) h
  · intro s e h
    exact readerP_mono _ n (attachBranchReader_le S nm s e) h
  · intro s hQs
    obtain ⟨pn, hpn⟩ := Option.isSome_iff_exists.mp hQs
    unfold attachBranchReader
    rw [if_pos hnE]
    refine ⟨mem_insertUniq_self _ _, ?_⟩
    rw [lookupKey_updatePNode, hpn]
    refine ⟨_, rfl, ?_⟩
    simp

theorem attach_branch_reader_none (c : CompiledGraph) (S nm : String) (b : Branch)
    (hends : b.ends = none) (n : String) (hnE : n ≠ END)
    (hn : (lookupKey n c.nodes).isSome) :
    branchChannel S nm n ∈ (attach_branch c S nm b).channels ∧
    ∃ pn, lookupKey n (attach_branch c S nm b).nodes = some pn ∧
      branchChannel S nm n ∈ pn.triggers := by
  unfold attach_branch
  simp only
  have hn2 : (lookupKey n (addStage (addHiddenStart c S) S nm b).nodes).isSome :=
    isSome_mono n (planLE_trans (addHiddenStart_le c S) (addStage_le _ S nm b)) hn
  apply attachBranchReader_fold_establish S nm n hnE
  · unfold branchDests
    rw [hends]
    exact mem_keys_of_lookupKey_isSome _ _ hn2
  · exact hn2

theorem branches_fold_reader (S nm : String) (b : Branch) (brs : List (String × Branch))
    (hb : (nm, b) ∈ brs) (hends : b.ends = none) (n : String) (hnE : n ≠ END) :
    ∀ (bs : List (String × List (String × Branch))) (c : CompiledGraph),
      (S, brs) ∈ bs → (lookupKey n c.nodes).isSome →
      branchChannel S nm n ∈ (bs.foldl attachSourceBranches c).channels ∧
      ∃ pn, lookupKey n (bs.foldl attachSourceBranches c).nodes = some pn ∧
        branchChannel S nm n ∈ pn.triggers := by
  intro bs c hmem hQ
  refine foldl_establish
    (fun s => branchChannel S nm n ∈ s.channels ∧
      ∃ pn, lookupKey n s.nodes = some pn ∧ branchChannel S nm n ∈ pn.triggers)
    (fun s => (lookupKey n s.nodes).isSome)
    attachSourceBranches (S, brs) ?_ ?_ ?_ bs c hmem hQ
  · intro s p h
    exact isSome_mono n (attachSourceBranches_le s p) h
  · intro s p h
    exact readerP_mono _ n (attachSourceBranches_le s p) h
  · intro s hQs
    refine foldl_establish
      (fun s2 => branchChannel S nm n ∈ s2.channels ∧
        ∃ pn, lookupKey n s2.nodes = some pn ∧ branchChannel S nm n ∈ pn.triggers)
      (fun s2 => (lookupKey n s2.nodes).isSome)
      (attachNamedBranch S) (nm, b) ?_ ?_ ?_ brs s hb hQs
    · intro s2 q h
      exact isSome_mono n (attachNamedBranch_le S s2 q) h
    · intro s2 q h
      exact readerP_mono _ n (attachNamedBranch_le S s2 q) h
    · intro s2 hQ2
      exact attach_branch_reader_none s2 S nm b hends n hnE hQ2

theorem compileAttach_reader_none (g : Graph) (S nm : String) (b : Branch)
    (brs : List (String × Branch)) (hmem : (S, brs) ∈ g.branches) (hb : (nm, b) ∈ brs)
    (hends : b.ends = none) (n : String) (hn : n ∈ g.nodes) (hnE : n ≠ END) :
    branchChannel S nm n ∈ (compileAttach g).channels ∧
    ∃ pn, lookupKey n (compileAttach g).nodes = some pn ∧
      branchChannel S nm n ∈ pn.triggers := by
  unfold compileAttach
  simp only
  apply branches_fold_reader S nm b brs hb hends n hnE g.branches _ hmem
  rcases node_unit_writer g.nodes initialCompiled n hn rfl with ⟨pn, hl, _⟩
  apply isSome_mono n (foldl_planLE attachEdgePair attachEdgePair_le g.edges _)
  rw [hl]
  rfl

/-! ### Injectivity of the branch-channel naming scheme for colon-free parts -/

theorem sep_split : ∀ (a b rest1 rest2 : List Char), ':' ∉ a → ':' ∉ b →
    a ++ ':' :: rest1 = b ++ ':' :: rest2 → a = b ∧ rest1 = rest2 := by
  intro a
  induction a with
  | nil =>
    intro b rest1 rest2 _ hb h
    cases b with
    | nil =>
      simp only [List.nil_append] at h
      cases h
      exact ⟨rfl, rfl⟩
    | cons c t =>
      simp only [List.nil_append, List.cons_append] at h
      have : c = ':' := (List.cons.injEq .. ▸ h).1.symm
      exact absurd (this ▸ List.mem_cons_self c t) hb
  | cons c t ih =>
    intro b rest1 rest2 ha hb h
    cases b with
    | nil =>
      simp only [List.cons_append, List.nil_append] at h
      have : c = ':' := (List.cons.injEq .. ▸ h).1
      exact absurd (this ▸ List.mem_cons_self c t) ha
    | cons c2 t2 =>
      simp only [List.cons_append] at h
      have h1 : c = c2 := (List.cons.injEq .. ▸ h).1
      have h2 : t ++ ':' :: rest1 = t2 ++ ':' :: rest2 := (List.cons.injEq .. ▸ h).2
      have ha2 : ':' ∉ t := fun hm => ha (List.mem_cons_of_mem _ hm)
      have hb2 : ':' ∉ t2 := fun hm => hb (List.mem_cons_of_mem _ hm)
      rcases ih t2 rest1 rest2 ha2 hb2 h2 with ⟨he, hr⟩
      exact ⟨by rw [h1, he], hr⟩

theorem branchChannel_data (s n e : String) :
    (branchChannel s n e).data =
      ['b', 'r', 'a', 'n', 'c', 'h'] ++ ':' :: (s.data ++ ':' :: (n.data ++ ':' :: e.data)) := by
  show ((((("branch:" ++ s) ++ ":") ++ n) ++ ":") ++ e).data = _
  have happ : ∀ a b : String, (a ++ b).data = a.data ++ b.data := fun a b => rfl
  rw [happ, happ, happ, happ, happ]
  simp

theorem colon_mem_branchChannel (s n e : String) : ':' ∈ (branchChannel s n e).data := by
  rw [branchChannel_data]
  exact List.mem_append_right _ (List.mem_cons_self _ _)

theorem branchChannel_ne_of_colonFree (s n e c : String) (hc : colonFree c) :
    branchChannel s n e ≠ c := by
  intro h
  have := colon_mem_branchChannel s n e
  rw [h] at this
  exact hc this

theorem branchChannel_inj (s n e s2 n2 e2 : String)
    (hs : colonFree s) (hs2 : colonFree s2) (hn : colonFree n) (hn2 : colonFree n2)
    (h : branchChannel s n e = branchChannel s2 n2 e2) : s = s2 ∧ n = n2 ∧ e = e2 := by
  have hd : (branchChannel s n e).data = (branchChannel s2 n2 e2).data := by rw [h]
  rw [branchChannel_data, branchChannel_data] at hd
  have h0 := sep_split ['b', 'r', 'a', 'n', 'c', 'h'] ['b', 'r', 'a', 'n', 'c', 'h'] _ _
    (by decide) (by decide) hd
  have h1 := sep_split s.data s2.data _ _ hs hs2 h0.2
  have h2 := sep_split n.data n2.data _ _ hn hn2 h1.2
  exact ⟨String.ext h1.1, String.ext h2.1, String.ext h2.2⟩

theorem colonFree_START : colonFree START := by
  unfold colonFree START
  decide

/-! ### The writer and channel invariants of the attachment phase -/

theorem mem_insertUniq_cases (l : List String) (x y : String) (h : x ∈ insertUniq l y) :
    x ∈ l ∨ x = y := by
  unfold insertUniq at h
  split at h
  · exact Or.inl h
  · rcases List.mem_append.mp h with h1 | h2
    · exact Or.inl h1
    · exact Or.inr (List.mem_singleton.mp h2)

theorem writerInv_attach_node (g : Graph) (c : CompiledGraph) (key : String)
    (hkey : key ∈ g.nodes) (h : WriterInv g c) : WriterInv g (attach_node c key) := by
  intro k pn hmem
  unfold attach_node at hmem
  simp only at hmem
  rcases List.mem_append.mp hmem with h1 | h2
  · exact h k pn h1
  · have heq := List.mem_singleton.mp h2
    cases heq
    refine ⟨?_, ?_, Or.inl hkey⟩
    · intro w hw
      exact Or.inl (List.mem_singleton.mp hw)
    · intro st hst
      cases hst

theorem writerInv_attach_edge (g : Graph) (c : CompiledGraph) (s e : String)
    (h : WriterInv g c) : WriterInv g (attach_edge c s e) := by
  intro k pn hmem
  unfold attach_edge at hmem
  split at hmem
  · simp only at hmem
    rcases mem_updatePNode _ _ _ _ _ hmem with ⟨pn0, hmem0, heq⟩
    rcases h k pn0 hmem0 with ⟨hw, hst, hk⟩
    by_cases hks : k = s
    · rw [heq, if_pos hks]
      refine ⟨?_, hst, hk⟩
      intro w hw2
      rcases List.mem_append.mp hw2 with h3 | h4
      · exact hw w h3
      · exact Or.inr (List.mem_singleton.mp h4)
    · rw [heq, if_neg hks]
      exact ⟨hw, hst, hk⟩
  · simp only at hmem
    rcases mem_updatePNode _ _ _ _ _ hmem with ⟨pn0, hmem0, heq⟩
    rcases h k pn0 hmem0 with ⟨hw, hst, hk⟩
    by_cases hke : k = e
    · rw [heq, if_pos hke]
      exact ⟨hw, hst, hk⟩
    · rw [heq, if_neg hke]
      exact ⟨hw, hst, hk⟩

theorem writerInv_addHiddenStart (g : Graph) (c : CompiledGraph) (start : String)
    (h : WriterInv g c) : WriterInv g (addHiddenStart c start) := by
  intro k pn hmem
  unfold addHiddenStart at hmem
  split at hmem
  · simp only at hmem
    rcases List.mem_append.mp hmem with h1 | h2
    · exact h k pn h1
    · have heq := List.mem_singleton.mp h2
      cases heq
      refine ⟨?_, ?_, Or.inr rfl⟩
      · intro w hw
        cases hw
      · intro st hst
        cases hst
  · exact h k pn hmem

theorem writerInv_addStage (g : Graph) (c : CompiledGraph) (start nm : String) (b : Branch)
    (hdecl : branchDeclared g start nm b) (h : WriterInv g c) :
    WriterInv g (addStage c start nm b) := by
  intro k pn hmem
  unfold addStage at hmem
  simp only at hmem
  rcases mem_updatePNode _ _ _ _ _ hmem with ⟨pn0, hmem0, heq⟩
  rcases h k pn0 hmem0 with ⟨hw, hst, hk⟩
  by_cases hks : k = start
  · rw [heq, if_pos hks]
    refine ⟨hw, ?_, hk⟩
    intro st hst2
    rcases List.mem_append.mp hst2 with h3 | h4
    · exact hst st h3
    · have heq2 := List.mem_singleton.mp h4
      subst heq2
      exact ⟨hks.symm, hks ▸ hdecl⟩
  · rw [heq, if_neg hks]
    exact ⟨hw, hst, hk⟩

theorem writerInv_attachBranchReader (g : Graph) (c : CompiledGraph) (start nm e : String)
    (h : WriterInv g c) : WriterInv g (attachBranchReader start nm c e) := by
  intro k pn hmem
  unfold attachBranchReader at hmem
  split at hmem
  · simp only at hmem
    rcases mem_updatePNode _ _ _ _ _ hmem with ⟨pn0, hmem0, heq⟩
    rcases h k pn0 hmem0 with ⟨hw, hst, hk⟩
    by_cases hke : k = e
    · rw [heq, if_pos hke]
      exact ⟨hw, hst, hk⟩
    · rw [heq, if_neg hke]
      exact ⟨hw, hst, hk⟩
  · exact h k pn hmem

theorem writerInv_attach_branch (g : Graph) (c : CompiledGraph) (start nm : String)
    (b : Branch) (hdecl : branchDeclared g start nm b) (h : WriterInv g c) :
    WriterInv g (attach_branch c start nm b) := by
  unfold attach_branch
  simp only
  apply foldl_preserve (WriterInv g) (attachBranchReader start nm)
  · intro s2 e2 hI
    exact writerInv_attachBranchReader g s2 start nm e2 hI
  · exact writerInv_addStage g _ start nm b hdecl (writerInv_addHiddenStart g c start h)

theorem writerInv_compileAttach (g : Graph) : WriterInv g (compileAttach g) := by
  unfold compileAttach
  simp only
  apply foldl_preserve_mem (WriterInv g) attachSourceBranches
  · intro s2 p hp hI
    unfold attachSourceBranches
    apply foldl_preserve_mem (WriterInv g) (attachNamedBranch p.1)
    · intro s3 q hq hI2
      unfold attachNamedBranch
      exact writerInv_attach_branch g s3 p.1 q.1 q.2 ⟨p.2, hp, hq⟩ hI2
    · exact hI
  · apply foldl_preserve (WriterInv g) attachEdgePair
    · intro s2 e2 hI
      exact writerInv_attach_edge g s2 e2.1 e2.2 hI
    · apply foldl_preserve_mem (WriterInv g) attach_node
      · intro s2 k2 hk2 hI
        exact writerInv_attach_node g s2 k2 hk2 hI
      · intro k pn hmem
        cases hmem

theorem chanInv_attach_node (g : Graph) (c : CompiledGraph) (key : String)
    (hkey : key ∈ g.nodes) (h : ChanInv g c) : ChanInv g (attach_node c key) := by
  intro ch hch
  unfold attach_node at hch
  simp only at hch
  rcases mem_insertUniq_cases _ _ _ hch with h1 | h2
  · exact h ch h1
  · subst h2
    exact Or.inr (Or.inr (Or.inl hkey))

theorem chanInv_attach_edge (g : Graph) (c : CompiledGraph) (s e : String)
    (h : ChanInv g c) : ChanInv g (attach_edge c s e) := by
  intro ch hch
  unfold attach_edge at hch
  split at hch
  · exact h ch hch
  · exact h ch hch

theorem chanInv_attachBranchReader (g : Graph) (c : CompiledGraph) (start nm e : String)
    (b : Branch) (hdecl : branchDeclared g start nm b) (hdest : allowedDest b e)
    (h : ChanInv g c) : ChanInv g (attachBranchReader start nm c e) := by
  intro ch hch
  unfold attachBranchReader at hch
  split at hch
  · next hne =>
    simp only at hch
    rcases mem_insertUniq_cases _ _ _ hch with h1 | h2
    · exact h ch h1
    · subst h2
      exact Or.inr (Or.inr (Or.inr ⟨start, nm, b, e, hdecl, hdest, hne, rfl⟩))
  · exact h ch hch

theorem chanInv_attach_branch (g : Graph) (c : CompiledGraph) (start nm : String)
    (b : Branch) (hdecl : branchDeclared g start nm b) (h : ChanInv g c) :
    ChanInv g (attach_branch c start nm b) := by
  unfold attach_branch
  simp only
  have hbase : ChanInv g (addStage (addHiddenStart c start) start nm b) := by
    unfold addStage addHiddenStart
    split
    · exact h
    · exact h
  apply foldl_preserve_mem (ChanInv g) (attachBranchReader start nm)
  · intro s2 e2 he2 hI
    apply chanInv_attachBranchReader g s2 start nm e2 b hdecl _ hI
    unfold branchDests at he2
    unfold allowedDest
    cases hends : b.ends with
    | some m =>
      rw [hends] at he2
      cases m with
      | nil => trivial
      | cons q rest => simpa using he2
    | none => trivial
  · exact hbase

theorem chanInv_compileAttach (g : Graph) : ChanInv g (compileAttach g) := by
  unfold compileAttach
  simp only
  apply foldl_preserve_mem (ChanInv g) attachSourceBranches
  · intro s2 p hp hI
    unfold attachSourceBranches
    apply foldl_preserve_mem (ChanInv g) (attachNamedBranch p.1)
    · intro s3 q hq hI2
      unfold attachNamedBranch
      exact chanInv_attach_branch g s3 p.1 q.1 q.2 ⟨p.2, hp, hq⟩ hI2
    · exact hI
  · apply foldl_preserve (ChanInv g) attachEdgePair
    · intro s2 e2 hI
      exact chanInv_attach_edge g s2 e2.1 e2.2 hI
    · apply foldl_preserve_mem (ChanInv g) attach_node
      · intro s2 k2 hk2 hI
        exact chanInv_attach_node g s2 k2 hk2 hI
      · intro ch hch
        unfold initialCompiled at hch
        rcases List.mem_cons.mp hch with h1 | h2
        · exact Or.inl h1
        · exact Or.inr (Or.inl (List.mem_singleton.mp h2))

/-! ### The channel registry never holds duplicate names -/

theorem insertUniq_nodup (l : List String) (x : String) (h : l.Nodup) :
    (insertUniq l x).Nodup := by
  unfold insertUniq
  split
  · exact h
  · next hc =>
    have hx : x ∉ l := fun hm => hc (List.elem_iff.mpr hm)
    simp [List.nodup_append, h, hx]

theorem channels_nodup_attach_node (c : CompiledGraph) (key : String)
    (h : c.channels.Nodup) : (attach_node c key).channels.Nodup :=
  insertUniq_nodup c.channels key h

theorem channels_nodup_attach_edge (c : CompiledGraph) (s e : String)
    (h : c.channels.Nodup) : (attach_edge c s e).channels.Nodup := by
  unfold attach_edge
  split
  · exact h
  · exact h

theorem channels_nodup_attach_branch (c : CompiledGraph) (start nm : String) (b : Branch)
    (h : c.channels.Nodup) : (attach_branch c start nm b).channels.Nodup := by
  unfold attach_branch
  simp only
  apply foldl_preserve (fun s => s.channels.Nodup) (attachBranchReader start nm)
  · intro s2 e2 h2
    unfold attachBranchReader
    split
    · exact insertUniq_nodup _ _ h2
    · exact h2
  · unfold addStage addHiddenStart
    split
    · exact h
    · exact h

theorem channels_nodup_compileAttach (g : Graph) : (compileAttach g).channels.Nodup := by
  unfold compileAttach
  simp only
  apply foldl_preserve (fun s => s.channels.Nodup) attachSourceBranches
  · intro s2 p h2
    unfold attachSourceBranches
    apply foldl_preserve (fun s => s.channels.Nodup) (attachNamedBranch p.1)
    · intro s3 q h3
      exact channels_nodup_attach_branch s3 p.1 q.1 q.2 h3
    · exact h2
  · apply foldl_preserve (fun s => s.channels.Nodup) attachEdgePair
    · intro s2 e2 h2
      exact channels_nodup_attach_edge s2 e2.1 e2.2 h2
    · apply foldl_preserve (fun s => s.channels.Nodup) attach_node
      · intro s2 k2 h2
        exact channels_nodup_attach_node s2 k2 h2
      · unfold initialCompiled
        simp [START, END]

/-! ### Membership in the assembled source set of the validator -/

theorem mem_allSources_branch (g : Graph) (S nm T : String) (b : Branch)
    (brs : List (String × Branch)) (hmem : (S, brs) ∈ g.branches) (hb : (nm, b) ∈ brs)
    (hends : b.ends = none) (hthn : b.thn = some T)
    (n : String) (hn : n ∈ g.nodes) (hnS : n ≠ S) (hnT : n ≠ T) :
    n ∈ allSources g := by
  unfold allSources
  simp only
  refine foldl_establish (fun acc => n ∈ acc) (fun _ => True) _ (S, brs)
    (fun _ _ _ => trivial) ?_ ?_ g.branches _ hmem trivial
  · intro acc p hacc
    apply foldl_preserve (fun a2 => n ∈ a2)
    · intro a2 q ha2
      exact mem_dedupAppend_of_mem _ _ _ (mem_insertUniq_of_mem _ _ _ ha2)
    · exact hacc
  · intro acc _
    refine foldl_establish (fun a2 => n ∈ a2) (fun _ => True) _ (nm, b)
      (fun _ _ _ => trivial) ?_ ?_ brs acc hb trivial
    · intro a2 q ha2
      exact mem_dedupAppend_of_mem _ _ _ (mem_insertUniq_of_mem _ _ _ ha2)
    · intro a2 _
      apply mem_dedupAppend_of_mem_right
      unfold branchSources
      rw [hthn, hends]
      simp [List.mem_filter, hn, hnS, hnT]

/-! ### Claim theorems -/

/-- C4: for the graph with declared nodes A and B and edges from the entry to
A, from A to B and from B to the terminal, validation succeeds (marking the
builder compiled), compilation produces a plan, the trigger set of A is
exactly the entry channel, the trigger set of B is exactly the output channel
of A, and the unit of B carries the ChannelWrite that publishes to the
terminal channel. -/
theorem claim_C4_linear_plan :
    validate gLinear [] = Except.ok { gLinear with compiled := true } ∧
    compileGraph gLinear [] [] = Except.ok (planOf gLinear) ∧
    triggersOf (planOf gLinear) "A" = [START] ∧
    triggersOf (planOf gLinear) "B" = ["A"] ∧
    [END] ∈ writersOf (planOf gLinear) "B" := by
  refine ⟨by decide, by decide, by decide, by decide, by decide⟩

/-- C1: the compiler never wires the convergence node of a branch.  In the
compiled plan of gThen (branch on A with ends mapping x to B and then equal
to T), the trigger set of T is empty: in particular it does not contain the
output channel of the destination B, so T can never become eligible to run,
contradicting the documented semantics of the then argument.  The second
conjunct also verifies the one part of the claim the code does satisfy: T is
not directly triggered by the branch source A. -/
theorem claim_C1_then_unwired :
    compileGraph gThen [] [] = Except.ok (planOf gThen) ∧
    triggersOf (planOf gThen) "T" = [] ∧
    ("B" ∈ triggersOf (planOf gThen) "T" → False) ∧
    ("A" ∈ triggersOf (planOf gThen) "T" → False) := by
  exact ⟨by decide, by decide, by decide, by decide⟩

/-- C2 counterexample: for the branch on A of gNoEnds (no ends table), the
compiler materializes the dedicated channel for destination A itself — the
branch source — and adds it to the trigger set of A, refuting the claim that
the destination universe is every other declared node and never the source. -/
theorem claim_C2_counterexample :
    compileGraph gNoEnds [] [] = Except.ok (planOf gNoEnds) ∧
    branchChannel "A" "condition" "A" ∈ (planOf gNoEnds).channels ∧
    branchChannel "A" "condition" "A" ∈ triggersOf (planOf gNoEnds) "A" := by
  exact ⟨by decide, by decide, by decide⟩

/-- C3 counterexample: in gDead the branch on A has no ends table and no then
node; the validator adds nothing beyond the branch source to all_sources, so
the declared node B — reachable only as a target of that branch — is missing
from all_sources and validation reports it as a dead end, refuting the claim
that the universe is added regardless of the presence of a then node. -/
theorem claim_C3_counterexample :
    ("B" ∈ allSources gDead → False) ∧
    validate gDead [] = Except.error (ValidationError.deadEnd "B") := by
  exact ⟨by decide, by decide⟩

/-- C5 counterexample: in the plan of gTwoFinish two distinct lowered units,
B and C, each hold a ChannelWrite publishing to the terminal channel, so the
terminal channel of the registry does not have exactly one writer stage. -/
theorem claim_C5_counterexample :
    compileGraph gTwoFinish [] [] = Except.ok (planOf gTwoFinish) ∧
    END ∈ (planOf gTwoFinish).channels ∧
    [END] ∈ writersOf (planOf gTwoFinish) "B" ∧
    [END] ∈ writersOf (planOf gTwoFinish) "C" ∧
    ("B" = "C" → False) := by
  exact ⟨by decide, by decide, by decide, by decide, by decide⟩

/-- C6: compiling gRoute attaches to S exactly one branch writer stage, and
running that stage on path result x writes only to the dedicated channel for
destination A, never to the one for destination B. -/
theorem claim_C6_route_writes_target_only :
    compileGraph gRoute [] [] = Except.ok (planOf gRoute) ∧
    stagesOf (planOf gRoute) "S" = [BranchStage.mk "S" "condition" bRoute] ∧
    runBranchStage (BranchStage.mk "S" "condition" bRoute) (PathResult.single "x") =
      Except.ok [branchChannel "S" "condition" "A"] ∧
    (branchChannel "S" "condition" "B" ∈ [branchChannel "S" "condition" "A"] → False) := by
  exact ⟨by decide, by decide, by decide, by decide⟩

/-- C7 counterexample: a branch declared with an explicit but empty ends
table never raises at invocation time.  The guard in the router is a
truthiness test, so the empty table routes labels verbatim: in the compiled
gEmptyEnds pipeline the attached stage run on the unmapped label z succeeds
and writes the verbatim destination channel — refuting the claim that a
label with no entry in an explicit ends mapping raises when the stage is
invoked. -/
theorem claim_C7_counterexample :
    (lookupKey "A" gEmptyEnds.branches = some [("condition", Branch.mk (some []) none)]) ∧
    ([].lookup "z" = (none : Option String)) ∧
    compileGraph gEmptyEnds [] [] = Except.ok (planOf gEmptyEnds) ∧
    stagesOf (planOf gEmptyEnds) "A" = [BranchStage.mk "A" "condition" (Branch.mk (some []) none)] ∧
    runBranchStage (BranchStage.mk "A" "condition" (Branch.mk (some []) none))
        (PathResult.single "z") =
      Except.ok [branchChannel "A" "condition" "z"] := by
  refine ⟨by decide, by decide, by decide, by decide, by decide⟩

/-- C7 amended: a routing label missing from a NON-EMPTY explicit ends table
raises exactly when the lowered writer stage is invoked: the first conjunct
shows the run-time error for every branch, source, name and missing label;
the remaining conjuncts show that for the concrete gRoute pipeline the
declaring call add_conditional_edges raises nothing, validation and
compilation succeed, and only running the attached stage on the unmapped
label z raises.  An explicit empty ends table is excepted: the router tests
the table for truthiness, not for presence, so such a branch routes labels
verbatim and never raises. -/
theorem claim_C7_amended :
    (∀ (src nm l : String) (b : Branch) (m : List (String × String)),
      b.ends = some m → m ≠ [] → m.lookup l = none →
      runBranchStage (BranchStage.mk src nm b) (PathResult.single l) =
        Except.error (RouteError.unknownLabel l)) ∧
    ((add_conditional_edges gRoutePre "S" none (some [("x", "A"), ("y", "B")]) none).graph
        = gRoute ∧
     (add_conditional_edges gRoutePre "S" none (some [("x", "A"), ("y", "B")]) none).err
        = none) ∧
    compileGraph gRoute [] [] = Except.ok (planOf gRoute) ∧
    runBranchStage (BranchStage.mk "S" "condition" bRoute) (PathResult.single "z") =
      Except.error (RouteError.unknownLabel "z") := by
  refine ⟨?_, ⟨by decide, by decide⟩, by decide, by decide⟩
  intro src nm l b m hends hne hlk
  obtain ⟨q, rest, rfl⟩ : ∃ q rest, m = q :: rest := by
    cases m with
    | nil => exact absurd rfl hne
    | cons q rest => exact ⟨q, rest, rfl⟩
  simp [runBranchStage, normalizeResult, Branch.route, resolveLabels, hends, hlk]

/-- Witness for C7 amended at a concrete non-empty table and missing label. -/
theorem claim_C7_witness :
    bRoute.ends = some [("x", "A"), ("y", "B")] ∧
    ([("x", "A"), ("y", "B")] ≠ ([] : List (String × String))) ∧
    ([("x", "A"), ("y", "B")].lookup "z" = (none : Option String)) ∧
    runBranchStage (BranchStage.mk "S" "cond2" bRoute) (PathResult.single "z") =
      Except.error (RouteError.unknownLabel "z") :=
  ⟨rfl, by decide, rfl,
   claim_C7_amended.1 "S" "cond2" "z" bRoute _ rfl (by decide) rfl⟩

/-- C8: whenever add_node, add_edge or add_conditional_edges raises a
declaration error, the builder state returned is exactly the one passed in:
no field was mutated before the raise. -/
theorem claim_C8_no_partial_mutation :
    (∀ (g : Graph) (key : String),
      (add_node g key).err.isSome → (add_node g key).graph = g) ∧
    (∀ (g : Graph) (s e : String),
      (add_edge g s e).err.isSome → (add_edge g s e).graph = g) ∧
    (∀ (g : Graph) (src : String) (pn : Option String) (pm : Option (List (String × String)))
      (t : Option String), (add_conditional_edges g src pn pm t).err.isSome →
      (add_conditional_edges g src pn pm t).graph = g) := by
  refine ⟨?_, ?_, ?_⟩
  · intro g key h
    by_cases h1 : key ∈ g.nodes
    · simp [add_node, h1]
    · by_cases h2 : key = END ∨ key = START
      · simp [add_node, h1, h2]
      · simp [add_node, h1, h2] at h
  · intro g s e h
    by_cases h1 : s = END
    · simp [add_edge, h1]
    · by_cases h2 : e = START
      · simp [add_edge, h1, h2]
      · by_cases h3 : ¬ g.support_multiple_edges = true ∧ (g.edges.map Prod.fst).contains s = true
        · unfold add_edge
          rw [if_neg h1, if_neg h2, if_pos h3]
        · unfold add_edge at h
          rw [if_neg h1, if_neg h2, if_neg h3] at h
          simp at h
  · intro g src pn pm t h
    by_cases h1 : (lookupKey (pn.getD "condition") ((lookupKey src g.branches).getD [])).isSome
    · simp [add_conditional_edges, h1]
    · simp [add_conditional_edges, h1] at h

/-- Witness for C8: a duplicate add_node on the linear example errors and
leaves the builder unchanged. -/
theorem claim_C8_witness :
    (add_node gLinear "A").err.isSome ∧ (add_node gLinear "A").graph = gLinear :=
  ⟨by decide, claim_C8_no_partial_mutation.1 gLinear "A" (by decide)⟩

/-- C9: on a builder already marked compiled, add_node, add_edge and
add_conditional_edges with otherwise-valid arguments complete with the
warning flag raised and no error; and the plan already produced from the
builder is untouched — in this pure embedding a produced plan is a value
computed from the builder snapshot, so the final conjunct restates that the
same snapshot still compiles to the same plan. -/
theorem claim_C9_post_compile_mutation (g : Graph) (p : CompiledGraph)
    (hcompiled : g.compiled = true)
    (hplan : compileGraph g [] [] = Except.ok p)
    (key s e src : String) (pn : Option String) (pm : Option (List (String × String)))
    (t : Option String)
    (h1 : ¬ key ∈ g.nodes) (h2 : ¬ (key = END ∨ key = START))
    (h3 : ¬ s = END) (h4 : ¬ e = START)
    (h5 : ¬ (¬ g.support_multiple_edges = true ∧ (g.edges.map Prod.fst).contains s = true))
    (h6 : ¬ (lookupKey (pn.getD "condition") ((lookupKey src g.branches).getD [])).isSome = true) :
    ((add_node g key).warned = true ∧ (add_node g key).err = none) ∧
    ((add_edge g s e).warned = true ∧ (add_edge g s e).err = none) ∧
    ((add_conditional_edges g src pn pm t).warned = true ∧
      (add_conditional_edges g src pn pm t).err = none) ∧
    compileGraph g [] [] = Except.ok p := by
  refine ⟨?_, ?_, ?_, hplan⟩
  · constructor <;> simp [add_node, h1, h2, hcompiled]
  · unfold add_edge
    rw [if_neg h3, if_neg h4, if_neg h5]
    exact ⟨hcompiled, rfl⟩
  · unfold add_conditional_edges
    simp only
    rw [if_neg h6]
    exact ⟨hcompiled, rfl⟩

/-- Witness for C9 on the compiled linear example with fresh arguments. -/
theorem claim_C9_witness :
    gLinearCompiled.compiled = true ∧
    ((add_node gLinearCompiled "Z").warned = true ∧ (add_node gLinearCompiled "Z").err = none) ∧
    ((add_edge gLinearCompiled "C" "D").warned = true ∧
      (add_edge gLinearCompiled "C" "D").err = none) ∧
    ((add_conditional_edges gLinearCompiled "A" none none none).warned = true ∧
      (add_conditional_edges gLinearCompiled "A" none none none).err = none) := by
  have h := claim_C9_post_compile_mutation gLinearCompiled (planOf gLinearCompiled)
    (by decide) (by decide) "Z" "C" "D" "A" none none none
    (by decide) (by decide) (by decide) (by decide) (by decide) (by decide)
  exact ⟨by decide, h.1, h.2.1, h.2.2.1⟩

theorem checkSources_ok (nodes : List String) (n : String) (hn : n ∈ nodes) :
    ∀ srcs : List String, checkSources nodes (some n) srcs = Except.ok () := by
  intro srcs
  induction srcs with
  | nil => rfl
  | cons s rest ih =>
    show (if ¬ nodes.contains n = true ∧ n ≠ START then
        Except.error (ValidationError.unknownSource s)
      else checkSources nodes (some n) rest) = Except.ok ()
    rw [if_neg]
    · exact ih
    · intro hcontra
      exact hcontra.1 (List.elem_iff.mpr hn)

theorem addEndsTargets_shape (nodes : List String) (start cond : String) :
    ∀ (es acc : List String),
      (∃ ts, addEndsTargets nodes start cond acc es = Except.ok ts) ∨
      (∃ tg, addEndsTargets nodes start cond acc es =
        Except.error (ValidationError.unknownBranchTarget start cond tg)) := by
  intro es
  induction es with
  | nil => intro acc; exact Or.inl ⟨acc, rfl⟩
  | cons e2 rest ih =>
    intro acc
    unfold addEndsTargets
    split
    · exact Or.inr ⟨e2, rfl⟩
    · exact ih _

theorem addBranchTargets_shape (nodes : List String) (start cond : String) (b : Branch)
    (acc : List String) :
    (∃ ts, addBranchTargets nodes start cond b acc = Except.ok ts) ∨
    (∃ tg, addBranchTargets nodes start cond b acc =
      Except.error (ValidationError.unknownBranchTarget start cond tg)) := by
  unfold addBranchTargets
  rcases b.ends with _ | m
  · exact Or.inl ⟨_, rfl⟩
  · exact addEndsTargets_shape nodes start cond _ _

theorem addSourceTargets_shape (nodes : List String) (start : String) :
    ∀ (brs : List (String × Branch)) (acc : List String),
      (∃ ts, addSourceTargets nodes start brs acc = Except.ok ts) ∨
      (∃ cond tg, addSourceTargets nodes start brs acc =
        Except.error (ValidationError.unknownBranchTarget start cond tg)) := by
  intro brs
  induction brs with
  | nil => intro acc; exact Or.inl ⟨acc, rfl⟩
  | cons q rest ih =>
    intro acc
    obtain ⟨cond, b⟩ := q
    unfold addSourceTargets
    rcases addBranchTargets_shape nodes start cond b acc with ⟨ts, hts⟩ | ⟨tg, htg⟩
    · rw [hts]
      exact ih ts
    · rw [htg]
      exact Or.inr ⟨cond, tg, rfl⟩

theorem addAllBranchTargets_shape (nodes : List String) :
    ∀ (bs : List (String × List (String × Branch))) (acc : List String),
      (∃ ts, addAllBranchTargets nodes bs acc = Except.ok ts) ∨
      (∃ st cond tg, addAllBranchTargets nodes bs acc =
        Except.error (ValidationError.unknownBranchTarget st cond tg)) := by
  intro bs
  induction bs with
  | nil => intro acc; exact Or.inl ⟨acc, rfl⟩
  | cons p rest ih =>
    intro acc
    obtain ⟨start, brs⟩ := p
    unfold addAllBranchTargets
    rcases addSourceTargets_shape nodes start brs acc with ⟨ts, hts⟩ | ⟨cond, tg, htg⟩
    · rw [hts]
      exact ih ts
    · rw [htg]
      exact Or.inr ⟨start, cond, tg, rfl⟩

theorem assembleTargets_shape (g : Graph) :
    (∃ ts, assembleTargets g = Except.ok ts) ∨
    (∃ st cond tg, assembleTargets g =
      Except.error (ValidationError.unknownBranchTarget st cond tg)) :=
  addAllBranchTargets_shape g.nodes g.branches _

/-- C10: the source-checking loop of validate tests the stale loop variable
left behind by the node loop, so with at least one declared node it can never
raise the unknown-source error (whatever the sources are); and with no
declared nodes but a non-empty source set it fails with the unbound-variable
error. -/
theorem claim_C10_stale_source_check (g : Graph) (interrupt : List String) :
    (g.nodes ≠ [] →
      ∀ s : String, validate g interrupt ≠ Except.error (ValidationError.unknownSource s)) ∧
    (g.nodes = [] → allSources g ≠ [] →
      validate g interrupt = Except.error ValidationError.nameErrorUnbound) := by
  constructor
  · intro hne s heq
    obtain ⟨n, hlast⟩ : ∃ n, g.nodes.getLast? = some n := by
      cases h : g.nodes.getLast? with
      | some n => exact ⟨n, rfl⟩
      | none => exact absurd (List.getLast?_eq_none_iff.mp h) hne
    have hmem : n ∈ g.nodes := List.mem_of_mem_getLast? hlast
    simp only [validate] at heq
    split at heq
    · simp at heq
    · split at heq
      · next e hcs =>
        rw [hlast, checkSources_ok g.nodes n hmem] at hcs
        cases hcs
      · split at heq
        · next e hat =>
          rcases assembleTargets_shape g with ⟨ts, hts⟩ | ⟨a2, b2, tg, htg⟩
          · rw [hts] at hat
            cases hat
          · rw [htg] at hat
            cases hat
            simp at heq
        · split at heq
          · simp at heq
          · split at heq
            · simp at heq
            · split at heq
              · simp at heq
              · cases heq
  · intro hnil hsrc
    cases hs : allSources g with
    | nil => exact absurd hs hsrc
    | cons s rest =>
      simp only [validate, hnil, hs]
      rfl

/-- Witness for C10: the linear example never yields an unknown-source error,
and the builder with an edge but no nodes hits the unbound loop variable. -/
theorem claim_C10_witness :
    gLinear.nodes ≠ [] ∧
    validate gLinear [] ≠ Except.error (ValidationError.unknownSource "Z") ∧
    gNoNodes.nodes = [] ∧ allSources gNoNodes ≠ [] ∧
    validate gNoNodes [] = Except.error ValidationError.nameErrorUnbound :=
  ⟨by decide, (claim_C10_stale_source_check gLinear []).1 (by decide) "Z",
   by decide, by decide, (claim_C10_stale_source_check gNoNodes []).2 (by decide) (by decide)⟩

/-- C2 amended: for a branch without ends on source S, the compiler
materializes exactly one dedicated channel (the registry never holds
duplicates) named from (S, branch name, d) for every declared node d
including S itself — not only for the nodes other than S — and appends it to
the trigger set of d.  The hypothesis on S records that the Python code would
raise KeyError when the branch source is neither a declared node nor the
entry identifier, so only plans satisfying it are produced. -/
theorem claim_C2_amended (g : Graph) (p : CompiledGraph)
    (hc : compileGraph g [] [] = Except.ok p)
    (S nm : String) (b : Branch) (brs : List (String × Branch))
    (hmem : (S, brs) ∈ g.branches) (hb : (nm, b) ∈ brs) (hends : b.ends = none)
    (hS : S ∈ g.nodes ∨ S = START)
    (n : String) (hn : n ∈ g.nodes) (hnE : n ≠ END) :
    p.channels.Nodup ∧
    branchChannel S nm n ∈ p.channels ∧
    ∃ pn, lookupKey n p.nodes = some pn ∧ branchChannel S nm n ∈ pn.triggers := by
  have hp := compileGraph_ok g [] [] p hc
  subst hp
  exact ⟨channels_nodup_compileAttach g,
    compileAttach_reader_none g S nm b brs hmem hb hends n hn hnE⟩

/-- Witness for C2 amended at the no-ends example, destination the branch
source itself. -/
theorem claim_C2_amended_witness :
    (("A", [("condition", Branch.mk none none)]) ∈ gNoEnds.branches) ∧
    ("A" ∈ gNoEnds.nodes) ∧
    (planOf gNoEnds).channels.Nodup ∧
    branchChannel "A" "condition" "A" ∈ (planOf gNoEnds).channels ∧
    (∃ pn, lookupKey "A" (planOf gNoEnds).nodes = some pn ∧
      branchChannel "A" "condition" "A" ∈ pn.triggers) := by
  have h := claim_C2_amended gNoEnds (planOf gNoEnds) (by decide) "A" "condition"
    (Branch.mk none none) [("condition", Branch.mk none none)]
    (by decide) (by decide) rfl (Or.inl (by decide)) "A" (by decide) (by decide)
  exact ⟨by decide, by decide, h.1, h.2.1, h.2.2⟩

/-- C3 amended: the validator adds the declared nodes to all_sources for a
branch without ends only when that branch carries a then node, and it then
adds every declared node other than the branch source and the then node. -/
theorem claim_C3_amended (g : Graph) (S nm T : String) (b : Branch)
    (brs : List (String × Branch)) (hmem : (S, brs) ∈ g.branches) (hb : (nm, b) ∈ brs)
    (hends : b.ends = none) (hthn : b.thn = some T)
    (n : String) (hn : n ∈ g.nodes) (hnS : n ≠ S) (hnT : n ≠ T) :
    n ∈ allSources g :=
  mem_allSources_branch g S nm T b brs hmem hb hends hthn n hn hnS hnT

/-- Witness for C3 amended on the converging example graph. -/
theorem claim_C3_amended_witness :
    (("A", [("condition", Branch.mk none (some "T"))]) ∈ gConv.branches) ∧
    ("B" ∈ gConv.nodes) ∧ ("B" ≠ "A") ∧ ("B" ≠ "T") ∧
    "B" ∈ allSources gConv ∧
    validate gConv [] = Except.ok { gConv with compiled := true } :=
  ⟨by decide, by decide, by decide, by decide,
   claim_C3_amended gConv "A" "condition" "T" (Branch.mk none (some "T"))
     [("condition", Branch.mk none (some "T"))] (by decide) (by decide) rfl rfl
     "B" (by decide) (by decide) (by decide),
   by decide⟩

/-- C5 amended: in a compiled plan, every registry channel other than the
entry channel (which has no writer) and the terminal channel (which can
collect one writer per finish edge) has exactly one writer unit: the unit of
the node for an output channel, the branch source unit for a dedicated
branch channel.  Node and branch names must avoid the colon separator of the
branch-channel name format, otherwise distinct channels could share a name. -/
theorem claim_C5_amended (g : Graph) (p : CompiledGraph)
    (hc : compileGraph g [] [] = Except.ok p)
    (hcf : ∀ n, n ∈ g.nodes → colonFree n)
    (hbn : ∀ S brs nm b, (S, brs) ∈ g.branches → (nm, b) ∈ brs →
      colonFree nm ∧ (S ∈ g.nodes ∨ S = START))
    (ch : String) (hch : ch ∈ p.channels) (h1 : ch ≠ START) (h2 : ch ≠ END) :
    ∃ k, (∃ pn, (k, pn) ∈ p.nodes ∧ unitMayWrite pn ch) ∧
      ∀ k2 pn2, (k2, pn2) ∈ p.nodes → unitMayWrite pn2 ch → k2 = k := by
  have hp := compileGraph_ok g [] [] p hc
  subst hp
  have hWI := writerInv_compileAttach g
  have hcfe : ∀ x, x ∈ g.nodes ∨ x = START → colonFree x := by
    intro x hx
    rcases hx with hx | hx
    · exact hcf x hx
    · rw [hx]
      exact colonFree_START
  rcases chanInv_compileAttach g ch hch with hS | hE | hnode |
    ⟨S, nm, b, dst, hdecl, hdest, hdne, hcheq⟩
  · exact absurd hS h1
  · exact absurd hE h2
  · refine ⟨ch, ?_, ?_⟩
    · rcases compileAttach_node_writer g ch hnode with ⟨pn, hl, hw⟩
      exact ⟨pn, lookupKey_mem ch _ pn hl, Or.inl ⟨[ch], hw, List.mem_singleton.mpr rfl⟩⟩
    · intro k2 pn2 hmem2 hmw
      rcases hWI k2 pn2 hmem2 with ⟨hwi, hsti, hki⟩
      rcases hmw with ⟨w, hwmem, hchw⟩ | ⟨st, hstmem, hsmw⟩
      · rcases hwi w hwmem with h3 | h3
        · rw [h3] at hchw
          exact (List.mem_singleton.mp hchw).symm
        · rw [h3] at hchw
          exact absurd (List.mem_singleton.mp hchw) h2
      · rcases hsmw with ⟨dst2, hallow2, hcheq2⟩
        by_cases hde : dst2 = END
        · rw [if_pos hde] at hcheq2
          exact absurd hcheq2 h2
        · rw [if_neg hde] at hcheq2
          exact absurd hcheq2.symm (branchChannel_ne_of_colonFree _ _ _ ch (hcf ch hnode))
  · obtain ⟨brs, hbrs, hb⟩ := hdecl
    obtain ⟨hnmcf, hSd⟩ := hbn S brs nm b hbrs hb
    have hScf : colonFree S := hcfe S hSd
    refine ⟨S, ?_, ?_⟩
    · rcases compileAttach_stage g S nm b brs hbrs hb hSd with ⟨pn, hl, hst⟩
      refine ⟨pn, lookupKey_mem S _ pn hl, Or.inr ⟨BranchStage.mk S nm b, hst, ?_⟩⟩
      exact ⟨dst, hdest, by rw [if_neg hdne]; exact hcheq⟩
    · intro k2 pn2 hmem2 hmw
      rcases hWI k2 pn2 hmem2 with ⟨hwi, hsti, hki⟩
      rcases hmw with ⟨w, hwmem, hchw⟩ | ⟨st, hstmem, hsmw⟩
      · rcases hwi w hwmem with h3 | h3
        · rw [h3] at hchw
          have hck : ch = k2 := List.mem_singleton.mp hchw
          rw [hcheq] at hck
          exact absurd hck (branchChannel_ne_of_colonFree S nm dst k2 (hcfe k2 hki))
        · rw [h3] at hchw
          exact absurd (List.mem_singleton.mp hchw) h2
      · rcases hsmw with ⟨dst2, hallow2, hcheq2⟩
        obtain ⟨hsrc2, hdecl2⟩ := hsti st hstmem
        by_cases hde : dst2 = END
        · rw [if_pos hde] at hcheq2
          exact absurd hcheq2 h2
        · rw [if_neg hde] at hcheq2
          rw [hsrc2] at hcheq2
          rw [hcheq] at hcheq2
          obtain ⟨brs2, hbrs2, hb2⟩ := hdecl2
          obtain ⟨hnm2cf, _⟩ := hbn k2 brs2 st.name st.branch hbrs2 hb2
          exact ((branchChannel_inj S nm dst k2 st.name dst2 hScf (hcfe k2 hki)
            hnmcf hnm2cf hcheq2).1).symm

/-- Witness for C5 amended at a dedicated branch channel of the two-finish
example. -/
theorem claim_C5_amended_witness :
    (∀ n, n ∈ gTwoFinish.nodes → colonFree n) ∧
    branchChannel "A" "condition" "B" ∈ (planOf gTwoFinish).channels ∧
    (∃ k, (∃ pn, (k, pn) ∈ (planOf gTwoFinish).nodes ∧
        unitMayWrite pn (branchChannel "A" "condition" "B")) ∧
      ∀ k2 pn2, (k2, pn2) ∈ (planOf gTwoFinish).nodes →
        unitMayWrite pn2 (branchChannel "A" "condition" "B") → k2 = k) := by
  refine ⟨by decide, by decide,
    claim_C5_amended gTwoFinish (planOf gTwoFinish) (by decide) (by decide) ?_
      (branchChannel "A" "condition" "B") (by decide) (by decide) (by decide)⟩
  intro S brs nm b hSb hnb
  have hS2 := List.mem_singleton.mp hSb
  cases hS2
  have hb2 := List.mem_singleton.mp hnb
  cases hb2
  exact ⟨by decide, Or.inl (by decide)⟩
